import Mathlib

/-!
Shallow embedding of the Image_resizer core (image data model, nearest and
bilinear resampling kernels for the sequential and the OpenMP backend, the
benchmark harness and the distortion metrics), together with theorems that
settle the specification claims.

Modelling conventions:
* C `int` is modelled by `Int`; byte values (`std::uint8_t`) by `Nat`
  (valid buffers carry the bound `b <= 255` as an invariant).
* C `float` / `double` arithmetic is modelled exactly over `Rat`.  All the
  formulas involved are single deterministic expressions evaluated in a fixed
  association, so both backends evaluate identical real-number expressions
  and the exact model is sound for backend equivalence.  Where a property
  depends on the rounding of individual `float` operations (the same-size
  identity for dimensions beyond 2^23), the binary32 model `rnF32` defined
  further below captures the rounding the program performs.
* `std::sqrt` and `std::log10` are transcendental; results that pass through
  them are represented symbolically: `SqrtQ a` stands for `sqrt a` and
  `PsnrVal.finite m` stands for `20*log10 255 - 10*log10 m`.  Since `sqrt` is
  injective on nonnegative arguments and the branch on `mse == 0` is taken
  before `log10` is ever evaluated, this loses no information relevant here.
* a `throw` of `std::invalid_argument` is modelled by `Except.error` with the
  error class the specification assigns to that throw site.
-/

namespace ImageResizer

/-- Error taxonomy of the specification; each C++ throw site is mapped to the
class the spec assigns to its condition.  LengthError is outside the spec
taxonomy: it models the std::length_error that std::vector::reserve throws in
benchmark_resize when a negative runs count converts to an enormous size_t. -/
inductive Err where
  | InvalidInput
  | InvalidDimensions
  | InvalidShape
  | InvalidParameters
  | ShapeMismatch
  | LengthError
deriving DecidableEq, Repr

/-- Resize methods, from resize.hpp. -/
inductive ResizeMethod where
  | Nearest
  | Bilinear
deriving DecidableEq, Repr

/-- Execution backends, from resize.hpp. -/
inductive Backend where
  | Sequential
  | OpenMP
deriving DecidableEq, Repr

/-- The Image structure of image.hpp: row-major, channel-interleaved byte
buffer with `int` dimensions. -/
structure Image where
  width : ℤ
  height : ℤ
  channels : ℤ
  data : List ℕ
deriving DecidableEq, Repr

/-- Image::empty from image.hpp:
width <= 0 or height <= 0 or channels <= 0 or data.empty. -/
def Image.empty (img : Image) : Prop :=
  img.width ≤ 0 ∨ img.height ≤ 0 ∨ img.channels ≤ 0 ∨ img.data = []

instance (img : Image) : Decidable img.empty := by
  unfold Image.empty
  exact inferInstance

/-- Element access of image.hpp (Image::at and the row_ptr arithmetic):
element (x, y, c) lives at offset (y*width + x)*channels + c. -/
def Image.atPix (img : Image) (x y c : ℕ) : ℕ :=
  img.data.getD ((y * img.width.toNat + x) * img.channels.toNat + c) 0

/-- The Image constructor of image.hpp: validates width, height and channel
count and allocates a zero-filled buffer of width*height*channels bytes. -/
def mkImage (w h c : ℤ) : Except Err Image :=
  if w ≤ 0 ∨ h ≤ 0 then .error .InvalidDimensions
  else if ¬(c = 1 ∨ c = 3 ∨ c = 4) then .error .InvalidShape
  else .ok { width := w, height := h, channels := c,
             data := List.replicate (w.toNat * h.toNat * c.toNat) 0 }

/-- clamp_int from image.hpp: max(lo, min(hi, v)). -/
def clamp_int (v lo hi : ℤ) : ℤ := max lo (min hi v)

/-- clamp_u8 from image.hpp: clamp an int into the byte range [0, 255]. -/
def clamp_u8 (v : ℤ) : ℕ :=
  if v < 0 then 0 else if 255 < v then 255 else v.toNat

/-- std::lround: round to nearest integer, ties away from zero. -/
def lround (q : ℚ) : ℤ :=
  if q < 0 then -⌊-q + 1/2⌋ else ⌊q + 1/2⌋

/-- map_coord, identical in resize_sequential.cpp and resize_openmp.cpp:
pixel-center mapping (out_coord + 0.5) * (in_size / out_size) - 0.5. -/
def map_coord (out_coord in_size out_size : ℚ) : ℚ :=
  (out_coord + 1/2) * (in_size / out_size) - 1/2

/-- Row-major output buffer produced by the nested loops
`for y in [0,h) { for x in [0,w) { for c in [0,ch) { ... } } }`
that every kernel uses: byte (x, y, c) holds `f x y c`. -/
def buildData (w h ch : ℕ) (f : ℕ → ℕ → ℕ → ℕ) : List ℕ :=
  (List.range h).flatMap fun y =>
    (List.range w).flatMap fun x =>
      (List.range ch).map fun c => f x y c

/-- Per-pixel computation of resize_nearest in resize_sequential.cpp:
map both axes, lround, clamp into the valid index range, copy the byte. -/
def nearestPixel (img : Image) (out_w out_h : ℤ) (x y c : ℕ) : ℕ :=
  let sy := map_coord (y : ℚ) (img.height : ℚ) (out_h : ℚ)
  let iy := clamp_int (lround sy) 0 (img.height - 1)
  let sx := map_coord (x : ℚ) (img.width : ℚ) (out_w : ℚ)
  let ix := clamp_int (lround sx) 0 (img.width - 1)
  img.atPix ix.toNat iy.toNat c

/-- Per-pixel computation of resize_bilinear in resize_sequential.cpp. -/
def bilinearPixel (img : Image) (out_w out_h : ℤ) (x y c : ℕ) : ℕ :=
  let sy := map_coord (y : ℚ) (img.height : ℚ) (out_h : ℚ)
  let y0 := clamp_int ⌊sy⌋ 0 (img.height - 1)
  let y1 := clamp_int (y0 + 1) 0 (img.height - 1)
  let wy := sy - (y0 : ℚ)
  let sx := map_coord (x : ℚ) (img.width : ℚ) (out_w : ℚ)
  let x0 := clamp_int ⌊sx⌋ 0 (img.width - 1)
  let x1 := clamp_int (x0 + 1) 0 (img.width - 1)
  let wx := sx - (x0 : ℚ)
  let v00 : ℚ := img.atPix x0.toNat y0.toNat c
  let v10 : ℚ := img.atPix x1.toNat y0.toNat c
  let v01 : ℚ := img.atPix x0.toNat y1.toNat c
  let v11 : ℚ := img.atPix x1.toNat y1.toNat c
  let v0 := v00 + wx * (v10 - v00)
  let v1 := v01 + wx * (v11 - v01)
  let v := v0 + wy * (v1 - v0)
  clamp_u8 (lround v)

/-- resize_nearest from resize_sequential.cpp: construct the output image
(the constructor validates its arguments) and fill every output byte. -/
def resize_nearest (img : Image) (out_w out_h : ℤ) : Except Err Image :=
  (mkImage out_w out_h img.channels).map fun out0 =>
    { out0 with
      data := buildData out_w.toNat out_h.toNat img.channels.toNat
        (nearestPixel img out_w out_h) }

/-- resize_bilinear from resize_sequential.cpp. -/
def resize_bilinear (img : Image) (out_w out_h : ℤ) : Except Err Image :=
  (mkImage out_w out_h img.channels).map fun out0 =>
    { out0 with
      data := buildData out_w.toNat out_h.toNat img.channels.toNat
        (bilinearPixel img out_w out_h) }

/-- resize_seq from resize_sequential.cpp: validate, then dispatch. -/
def resize_seq (img : Image) (out_w out_h : ℤ) (method : ResizeMethod) :
    Except Err Image :=
  if img.empty then .error .InvalidInput
  else if out_w ≤ 0 ∨ out_h ≤ 0 then .error .InvalidDimensions
  else if ¬(img.channels = 1 ∨ img.channels = 3 ∨ img.channels = 4) then
    .error .InvalidShape
  else
    match method with
    | .Nearest => resize_nearest img out_w out_h
    | .Bilinear => resize_bilinear img out_w out_h

/-- Per-pixel computation of resize_nearest_omp in resize_openmp.cpp; the
loop body is identical to the sequential one, only the rows are distributed
over OpenMP threads (schedule static), which does not change any value. -/
def nearestPixelOmp (img : Image) (out_w out_h : ℤ) (x y c : ℕ) : ℕ :=
  let sy := map_coord (y : ℚ) (img.height : ℚ) (out_h : ℚ)
  let iy := clamp_int (lround sy) 0 (img.height - 1)
  let sx := map_coord (x : ℚ) (img.width : ℚ) (out_w : ℚ)
  let ix := clamp_int (lround sx) 0 (img.width - 1)
  img.atPix ix.toNat iy.toNat c

/-- Per-pixel computation of resize_bilinear_omp in resize_openmp.cpp. -/
def bilinearPixelOmp (img : Image) (out_w out_h : ℤ) (x y c : ℕ) : ℕ :=
  let sy := map_coord (y : ℚ) (img.height : ℚ) (out_h : ℚ)
  let y0 := clamp_int ⌊sy⌋ 0 (img.height - 1)
  let y1 := clamp_int (y0 + 1) 0 (img.height - 1)
  let wy := sy - (y0 : ℚ)
  let sx := map_coord (x : ℚ) (img.width : ℚ) (out_w : ℚ)
  let x0 := clamp_int ⌊sx⌋ 0 (img.width - 1)
  let x1 := clamp_int (x0 + 1) 0 (img.width - 1)
  let wx := sx - (x0 : ℚ)
  let v00 : ℚ := img.atPix x0.toNat y0.toNat c
  let v10 : ℚ := img.atPix x1.toNat y0.toNat c
  let v01 : ℚ := img.atPix x0.toNat y1.toNat c
  let v11 : ℚ := img.atPix x1.toNat y1.toNat c
  let v0 := v00 + wx * (v10 - v00)
  let v1 := v01 + wx * (v11 - v01)
  let v := v0 + wy * (v1 - v0)
  clamp_u8 (lround v)

/-- resize_nearest_omp from resize_openmp.cpp (HAVE_OPENMP branch): the
`threads` argument only feeds omp_set_num_threads, i.e. the scheduling, and
has no influence on any computed byte. -/
def resize_nearest_omp (img : Image) (out_w out_h : ℤ) (threads : ℤ) :
    Except Err Image :=
  let _ := threads
  (mkImage out_w out_h img.channels).map fun out0 =>
    { out0 with
      data := buildData out_w.toNat out_h.toNat img.channels.toNat
        (nearestPixelOmp img out_w out_h) }

/-- resize_bilinear_omp from resize_openmp.cpp (HAVE_OPENMP branch). -/
def resize_bilinear_omp (img : Image) (out_w out_h : ℤ) (threads : ℤ) :
    Except Err Image :=
  let _ := threads
  (mkImage out_w out_h img.channels).map fun out0 =>
    { out0 with
      data := buildData out_w.toNat out_h.toNat img.channels.toNat
        (bilinearPixelOmp img out_w out_h) }

/-- resize_omp from resize_openmp.cpp: validate emptiness and dimensions,
then dispatch; the channel count is validated by the Image constructor
inside the kernels. -/
def resize_omp (img : Image) (out_w out_h : ℤ) (method : ResizeMethod)
    (threads : ℤ) : Except Err Image :=
  if img.empty then .error .InvalidInput
  else if out_w ≤ 0 ∨ out_h ≤ 0 then .error .InvalidDimensions
  else
    match method with
    | .Nearest => resize_nearest_omp img out_w out_h threads
    | .Bilinear => resize_bilinear_omp img out_w out_h threads

/-- The resize facade from resize.hpp. -/
def resize (img : Image) (out_w out_h : ℤ) (method : ResizeMethod)
    (backend : Backend) (threads : ℤ) : Except Err Image :=
  match backend with
  | .OpenMP => resize_omp img out_w out_h method threads
  | .Sequential => resize_seq img out_w out_h method

/-- Well-formed image: the invariants of section 3 of the specification as
established by the Image constructor plus the inherent byte range. -/
def Image.wf (img : Image) : Prop :=
  0 < img.width ∧ 0 < img.height ∧
  (img.channels = 1 ∨ img.channels = 3 ∨ img.channels = 4) ∧
  img.data.length = img.width.toNat * img.height.toNat * img.channels.toNat ∧
  ∀ b ∈ img.data, b ≤ 255

instance (img : Image) : Decidable img.wf := by
  unfold Image.wf
  exact inferInstance

/-!  List-indexing lemmas for the row-major output buffer. -/

theorem flatMap_range_length (g : ℕ → List ℕ) (L : ℕ)
    (hL : ∀ y, (g y).length = L) (n : ℕ) :
    ((List.range n).flatMap g).length = n * L := by
  induction n with
  | zero => simp
  | succ k ih =>
    rw [List.range_succ, List.flatMap_append, List.length_append, ih]
    simp [hL, Nat.succ_mul]

theorem flatMap_range_getD (g : ℕ → List ℕ) (L : ℕ)
    (hL : ∀ y, (g y).length = L) :
    ∀ (n q r : ℕ), q < n → r < L →
      ((List.range n).flatMap g).getD (q * L + r) 0 = (g q).getD r 0 := by
  intro n
  induction n with
  | zero => intro q r hq _; exact absurd hq (Nat.not_lt_zero q)
  | succ k ih =>
    intro q r hq hr
    rw [List.range_succ, List.flatMap_append]
    rcases Nat.lt_or_ge q k with hqk | hqk
    · rw [List.getD_append _ _ 0 _ ?_, ih q r hqk hr]
      rw [flatMap_range_length g L hL]
      calc q * L + r < q * L + L := Nat.add_lt_add_left hr _
        _ = (q + 1) * L := (Nat.succ_mul q L).symm
        _ ≤ k * L := Nat.mul_le_mul_right L hqk
    · have hqe : q = k := Nat.le_antisymm (Nat.lt_succ_iff.mp hq) hqk
      subst hqe
      rw [List.getD_append_right _ _ 0 _ ?_]
      · rw [flatMap_range_length g L hL]
        simp [Nat.add_sub_cancel_left]
      · rw [flatMap_range_length g L hL]
        exact Nat.le_add_right _ _

theorem buildData_length (w h ch : ℕ) (f : ℕ → ℕ → ℕ → ℕ) :
    (buildData w h ch f).length = h * (w * ch) := by
  unfold buildData
  refine flatMap_range_length _ (w * ch) (fun y => ?_) h
  refine flatMap_range_length _ ch (fun x => ?_) w
  simp

theorem buildData_getD (w h ch : ℕ) (f : ℕ → ℕ → ℕ → ℕ)
    (x y c : ℕ) (hx : x < w) (hy : y < h) (hc : c < ch) :
    (buildData w h ch f).getD ((y * w + x) * ch + c) 0 = f x y c := by
  have hidx : (y * w + x) * ch + c = y * (w * ch) + (x * ch + c) := by ring
  have hrow : ∀ y0, ((List.range w).flatMap fun x0 =>
      (List.range ch).map fun c0 => f x0 y0 c0).length = w * ch := by
    intro y0
    refine flatMap_range_length _ ch (fun x0 => ?_) w
    simp
  have hin : x * ch + c < w * ch := by
    calc x * ch + c < x * ch + ch := Nat.add_lt_add_left hc _
      _ = (x + 1) * ch := (Nat.succ_mul x ch).symm
      _ ≤ w * ch := Nat.mul_le_mul_right ch hx
  unfold buildData
  rw [hidx, flatMap_range_getD _ (w * ch) hrow h y (x * ch + c) hy hin,
    flatMap_range_getD _ ch (fun x0 => by simp) w x c hx hc]
  have : c < ((List.range ch).map fun c0 => f x y c0).length := by simpa
  rw [List.getD_eq_getElem _ 0 this]
  simp

theorem buildData_eq_of_pix (w h ch : ℕ) (f : ℕ → ℕ → ℕ → ℕ) (l : List ℕ)
    (hlen : l.length = h * (w * ch))
    (hpt : ∀ x y c, x < w → y < h → c < ch →
      f x y c = l.getD ((y * w + x) * ch + c) 0) :
    buildData w h ch f = l := by
  apply List.ext_getElem (by rw [buildData_length, hlen])
  intro i hi hi2
  have hiwhc : i < h * (w * ch) := by rwa [hlen] at hi2
  have hwch : 0 < w * ch := by
    rcases Nat.eq_zero_or_pos (w * ch) with h0 | h0
    · rw [h0, Nat.mul_zero] at hiwhc; exact absurd hiwhc (Nat.not_lt_zero i)
    · exact h0
  have hch : 0 < ch := by
    rcases Nat.eq_zero_or_pos ch with h0 | h0
    · rw [h0, Nat.mul_zero] at hwch; exact absurd hwch (Nat.lt_irrefl 0)
    · exact h0
  set y := i / (w * ch) with hy_def
  set r := i % (w * ch) with hr_def
  set x := r / ch with hx_def
  set c := r % ch with hc_def
  have hy : y < h := (Nat.div_lt_iff_lt_mul hwch).mpr hiwhc
  have hrlt : r < w * ch := Nat.mod_lt i hwch
  have hx : x < w := (Nat.div_lt_iff_lt_mul hch).mpr hrlt
  have hc : c < ch := Nat.mod_lt r hch
  have hdecomp : i = (y * w + x) * ch + c := by
    have h1 : y * (w * ch) + r = i := by
      rw [hy_def, hr_def, Nat.mul_comm]
      exact Nat.div_add_mod i (w * ch)
    have h2 : x * ch + c = r := by
      rw [hx_def, hc_def, Nat.mul_comm]
      exact Nat.div_add_mod r ch
    calc i = y * (w * ch) + r := h1.symm
      _ = y * (w * ch) + (x * ch + c) := by rw [h2]
      _ = (y * w + x) * ch + c := by ring
  rw [← List.getD_eq_getElem (buildData w h ch f) 0 hi,
    ← List.getD_eq_getElem l 0 hi2, hdecomp,
    buildData_getD w h ch f x y c hx hy hc]
  exact hpt x y c hx hy hc

/-!  Arithmetic helper lemmas. -/

theorem map_coord_self (k : ℕ) (s : ℤ) (hs : 0 < s) :
    map_coord (k : ℚ) (s : ℚ) (s : ℚ) = (k : ℚ) := by
  unfold map_coord
  rw [div_self (by exact_mod_cast hs.ne' : (s : ℚ) ≠ 0)]
  ring

theorem lround_natCast (n : ℕ) : lround (n : ℚ) = (n : ℤ) := by
  unfold lround
  rw [if_neg (not_lt.mpr (by positivity : (0 : ℚ) ≤ (n : ℚ)))]
  rw [show ((n : ℚ)) = ((n : ℤ) : ℚ) by push_cast; ring, add_comm,
    Int.floor_add_int]
  norm_num

theorem floor_natCast_rat (n : ℕ) : ⌊(n : ℚ)⌋ = (n : ℤ) := Int.floor_natCast n

theorem clamp_int_eq_self (v hi : ℤ) (h0 : 0 ≤ v) (h1 : v ≤ hi) :
    clamp_int v 0 hi = v := by
  unfold clamp_int
  omega

theorem clamp_int_nat (k : ℕ) (s : ℤ) (hk : k < s.toNat) :
    clamp_int (k : ℤ) 0 (s - 1) = (k : ℤ) := by
  apply clamp_int_eq_self _ _ (Int.ofNat_nonneg k)
  omega

theorem atPix_index_lt (img : Image) (hwf : img.wf) (x y c : ℕ)
    (hx : x < img.width.toNat) (hy : y < img.height.toNat)
    (hc : c < img.channels.toNat) :
    (y * img.width.toNat + x) * img.channels.toNat + c < img.data.length := by
  obtain ⟨_, _, _, hlen, _⟩ := hwf
  rw [hlen]
  set w := img.width.toNat
  set h := img.height.toNat
  set ch := img.channels.toNat
  calc (y * w + x) * ch + c < (y * w + x) * ch + ch := Nat.add_lt_add_left hc _
    _ = (y * w + x + 1) * ch := (Nat.succ_mul _ ch).symm
    _ ≤ (h * w) * ch := by
        apply Nat.mul_le_mul_right
        calc y * w + x + 1 ≤ y * w + w := by omega
          _ = (y + 1) * w := (Nat.succ_mul y w).symm
          _ ≤ h * w := Nat.mul_le_mul_right w hy
    _ = w * h * ch := by ring

theorem atPix_le_255 (img : Image) (hwf : img.wf) (x y c : ℕ)
    (hx : x < img.width.toNat) (hy : y < img.height.toNat)
    (hc : c < img.channels.toNat) :
    img.atPix x y c ≤ 255 := by
  have hlt := atPix_index_lt img hwf x y c hx hy hc
  unfold Image.atPix
  rw [List.getD_eq_getElem _ 0 hlt]
  exact hwf.2.2.2.2 _ (List.getElem_mem hlt)

/-- C6: the coordinate mapper computes exactly
(out_coord + 0.5) * (in_size / out_size) - 0.5; it is a total pure function
(float arithmetic modelled exactly over the rationals). -/
theorem map_coord_formula (o i s : ℤ) (_ho : 0 ≤ o) (_hi : 0 < i) (_hs : 0 < s) :
    map_coord (o : ℚ) (i : ℚ) (s : ℚ) =
      ((o : ℚ) + 1/2) * ((i : ℚ) / (s : ℚ)) - 1/2 := rfl

theorem map_coord_formula_witness :
    map_coord ((3 : ℤ) : ℚ) ((7 : ℤ) : ℚ) ((2 : ℤ) : ℚ) =
      (((3 : ℤ) : ℚ) + 1/2) * (((7 : ℤ) : ℚ) / ((2 : ℤ) : ℚ)) - 1/2 :=
  map_coord_formula 3 7 2 (by decide) (by decide) (by decide)

/-- C4: for either backend, an empty or malformed input buffer fails with
InvalidInput, a non-positive output dimension fails with InvalidDimensions,
and an unsupported channel count fails with InvalidShape; in each case an
error value is returned instead of any output buffer. -/
theorem resize_error_classes (img : Image) (ow oh threads : ℤ)
    (m : ResizeMethod) (b : Backend) :
    (img.empty → resize img ow oh m b threads = .error .InvalidInput) ∧
    (¬img.empty → (ow ≤ 0 ∨ oh ≤ 0) →
      resize img ow oh m b threads = .error .InvalidDimensions) ∧
    (¬img.empty → 0 < ow → 0 < oh →
      ¬(img.channels = 1 ∨ img.channels = 3 ∨ img.channels = 4) →
      resize img ow oh m b threads = .error .InvalidShape) := by
  refine ⟨?_, ?_, ?_⟩
  · intro he
    cases b <;> simp only [resize, resize_seq, resize_omp] <;> rw [if_pos he]
  · intro hne hdim
    cases b <;> simp only [resize, resize_seq, resize_omp] <;>
      rw [if_neg hne, if_pos hdim]
  · intro hne how hoh hch
    have hdim : ¬(ow ≤ 0 ∨ oh ≤ 0) := by omega
    cases b
    · simp only [resize, resize_seq]
      rw [if_neg hne, if_neg hdim, if_pos hch]
    · simp only [resize, resize_omp]
      rw [if_neg hne, if_neg hdim]
      cases m <;>
        simp only [resize_nearest_omp, resize_bilinear_omp, mkImage] <;>
        rw [if_neg hdim, if_pos hch] <;> rfl

theorem resize_error_classes_witness :
    resize ⟨0, 0, 0, []⟩ 2 2 .Nearest .Sequential 1 = .error .InvalidInput ∧
    resize ⟨1, 1, 1, [7]⟩ 0 2 .Bilinear .OpenMP 4 = .error .InvalidDimensions ∧
    resize ⟨1, 1, 2, [7, 8]⟩ 2 2 .Nearest .OpenMP 1 = .error .InvalidShape :=
  ⟨(resize_error_classes ⟨0, 0, 0, []⟩ 2 2 1 .Nearest .Sequential).1 (by decide),
   (resize_error_classes ⟨1, 1, 1, [7]⟩ 0 2 4 .Bilinear .OpenMP).2.1
     (by decide) (by decide),
   (resize_error_classes ⟨1, 1, 2, [7, 8]⟩ 2 2 1 .Nearest .OpenMP).2.2
     (by decide) (by decide) (by decide) (by decide)⟩

/-!  Backend equivalence. -/

theorem nearestPixelOmp_eq (img : Image) (ow oh : ℤ) :
    nearestPixelOmp img ow oh = nearestPixel img ow oh := rfl

theorem bilinearPixelOmp_eq (img : Image) (ow oh : ℤ) :
    bilinearPixelOmp img ow oh = bilinearPixel img ow oh := rfl

theorem not_empty_of_parts (img : Image) (hw : 0 < img.width)
    (hh : 0 < img.height) (hc : 0 < img.channels) (hd : img.data ≠ []) :
    ¬img.empty := by
  unfold Image.empty
  rintro (h | h | h | h) <;> first | omega | exact hd h

theorem mkImage_ok (w h c : ℤ) (hw : 0 < w) (hh : 0 < h)
    (hc : c = 1 ∨ c = 3 ∨ c = 4) :
    mkImage w h c = .ok ⟨w, h, c, List.replicate (w.toNat * h.toNat * c.toNat) 0⟩ := by
  unfold mkImage
  rw [if_neg (by omega), if_neg (not_not.mpr hc)]

/-- C1: for every valid input image, positive output size, resize method and
thread count, the OpenMP backend and the Sequential backend succeed and
return byte-identical buffers. -/
theorem omp_matches_seq (img : Image) (ow oh threads : ℤ) (m : ResizeMethod)
    (hw : 0 < img.width) (hh : 0 < img.height)
    (hch : img.channels = 1 ∨ img.channels = 3 ∨ img.channels = 4)
    (hd : img.data ≠ []) (how : 0 < ow) (hoh : 0 < oh) :
    ∃ out, resize img ow oh m .OpenMP threads = .ok out ∧
           resize img ow oh m .Sequential threads = .ok out := by
  have hne : ¬img.empty := not_empty_of_parts img hw hh (by omega) hd
  have hdim : ¬(ow ≤ 0 ∨ oh ≤ 0) := by omega
  have hmk := mkImage_ok ow oh img.channels how hoh hch
  cases m
  case Nearest =>
    refine ⟨⟨ow, oh, img.channels, buildData ow.toNat oh.toNat
      img.channels.toNat (nearestPixel img ow oh)⟩, ?_, ?_⟩
    · simp only [resize, resize_omp]
      rw [if_neg hne, if_neg hdim]
      simp only [resize_nearest_omp, hmk, Except.map]
      rw [nearestPixelOmp_eq]
    · simp only [resize, resize_seq]
      rw [if_neg hne, if_neg hdim, if_neg (not_not.mpr hch)]
      simp only [resize_nearest, hmk, Except.map]
  case Bilinear =>
    refine ⟨⟨ow, oh, img.channels, buildData ow.toNat oh.toNat
      img.channels.toNat (bilinearPixel img ow oh)⟩, ?_, ?_⟩
    · simp only [resize, resize_omp]
      rw [if_neg hne, if_neg hdim]
      simp only [resize_bilinear_omp, hmk, Except.map]
      rw [bilinearPixelOmp_eq]
    · simp only [resize, resize_seq]
      rw [if_neg hne, if_neg hdim, if_neg (not_not.mpr hch)]
      simp only [resize_bilinear, hmk, Except.map]

theorem omp_matches_seq_witness :
    ∃ out, resize ⟨2, 1, 1, [10, 250]⟩ 4 2 .Bilinear .OpenMP 8 = .ok out ∧
           resize ⟨2, 1, 1, [10, 250]⟩ 4 2 .Bilinear .Sequential 8 = .ok out :=
  omp_matches_seq ⟨2, 1, 1, [10, 250]⟩ 4 2 8 .Bilinear (by decide) (by decide)
    (by decide) (by decide) (by decide) (by decide)

/-!  Pixelwise description of the nearest kernel, and same-size identity. -/

theorem buildImage_atPix (ow oh ch : ℤ) (f : ℕ → ℕ → ℕ → ℕ) (x y c : ℕ)
    (hx : x < ow.toNat) (hy : y < oh.toNat) (hc : c < ch.toNat) :
    (Image.mk ow oh ch (buildData ow.toNat oh.toNat ch.toNat f)).atPix x y c
      = f x y c := by
  unfold Image.atPix
  exact buildData_getD _ _ _ f x y c hx hy hc

/-- Rounding convention named by the specification for the nearest kernel:
round to the nearest integer, ties away from zero. -/
def roundHalfAwayFromZero (q : ℚ) : ℤ :=
  if q < 0 then -⌊-q + 1/2⌋ else ⌊q + 1/2⌋

/-- Pixel selection rule as worded in section 4.2 of the specification: map
both axes through the coordinate mapper, round each mapped coordinate to the
nearest integer with ties away from zero, clamp into [0, in_dim-1], copy the
byte of the selected source pixel. -/
def nearestSpecPixel (img : Image) (out_w out_h : ℤ) (x y c : ℕ) : ℕ :=
  let src_x := clamp_int
    (roundHalfAwayFromZero (map_coord (x : ℚ) (img.width : ℚ) (out_w : ℚ)))
    0 (img.width - 1)
  let src_y := clamp_int
    (roundHalfAwayFromZero (map_coord (y : ℚ) (img.height : ℚ) (out_h : ℚ)))
    0 (img.height - 1)
  img.atPix src_x.toNat src_y.toNat c

/-- C5: both backends of the Nearest kernel produce, at every output
coordinate, exactly the byte selected by the specification rule (mapper,
round half away from zero, clamp, verbatim copy), and the output channel
count equals the input channel count. -/
theorem nearest_follows_spec_rule (img : Image) (ow oh threads : ℤ)
    (hw : 0 < img.width) (hh : 0 < img.height)
    (hch : img.channels = 1 ∨ img.channels = 3 ∨ img.channels = 4)
    (hd : img.data ≠ []) (how : 0 < ow) (hoh : 0 < oh) :
    ∃ out, resize_seq img ow oh .Nearest = .ok out ∧
      resize_omp img ow oh .Nearest threads = .ok out ∧
      out.channels = img.channels ∧
      ∀ x y c, x < ow.toNat → y < oh.toNat → c < img.channels.toNat →
        out.atPix x y c = nearestSpecPixel img ow oh x y c := by
  have hne : ¬img.empty := not_empty_of_parts img hw hh (by omega) hd
  have hdim : ¬(ow ≤ 0 ∨ oh ≤ 0) := by omega
  have hmk := mkImage_ok ow oh img.channels how hoh hch
  refine ⟨⟨ow, oh, img.channels, buildData ow.toNat oh.toNat
    img.channels.toNat (nearestPixel img ow oh)⟩, ?_, ?_, rfl, ?_⟩
  · simp only [resize_seq]
    rw [if_neg hne, if_neg hdim, if_neg (not_not.mpr hch)]
    simp only [resize_nearest, hmk, Except.map]
  · simp only [resize_omp]
    rw [if_neg hne, if_neg hdim]
    simp only [resize_nearest_omp, hmk, Except.map]
    rw [nearestPixelOmp_eq]
  · intro x y c hx hy hc
    rw [buildImage_atPix ow oh img.channels _ x y c hx hy hc]
    rfl

theorem nearest_follows_spec_rule_witness :
    ∃ out, resize_seq ⟨2, 2, 1, [9, 8, 7, 6]⟩ 3 1 .Nearest = .ok out ∧
      resize_omp ⟨2, 2, 1, [9, 8, 7, 6]⟩ 3 1 .Nearest 2 = .ok out ∧
      out.channels = (⟨2, 2, 1, [9, 8, 7, 6]⟩ : Image).channels ∧
      ∀ x y c, x < (3 : ℤ).toNat → y < (1 : ℤ).toNat →
        c < (⟨2, 2, 1, [9, 8, 7, 6]⟩ : Image).channels.toNat →
        out.atPix x y c = nearestSpecPixel ⟨2, 2, 1, [9, 8, 7, 6]⟩ 3 1 x y c :=
  nearest_follows_spec_rule ⟨2, 2, 1, [9, 8, 7, 6]⟩ 3 1 2 (by decide)
    (by decide) (by decide) (by decide) (by decide) (by decide)

theorem nearest_same_size_pixel (img : Image) (hw : 0 < img.width)
    (hh : 0 < img.height) (x y c : ℕ)
    (hx : x < img.width.toNat) (hy : y < img.height.toNat) :
    nearestPixel img img.width img.height x y c = img.atPix x y c := by
  unfold nearestPixel
  simp only [map_coord_self y img.height hh, map_coord_self x img.width hw,
    lround_natCast, clamp_int_nat y img.height hy,
    clamp_int_nat x img.width hx, Int.toNat_natCast]

theorem clamp_u8_natCast (n : ℕ) (h : n ≤ 255) : clamp_u8 (n : ℤ) = n := by
  unfold clamp_u8
  rw [if_neg (by omega), if_neg (by omega)]
  omega

theorem wf_data_ne_nil (img : Image) (hwf : img.wf) : img.data ≠ [] := by
  obtain ⟨hw, hh, hch, hlen, _⟩ := hwf
  intro h0
  rw [h0] at hlen
  simp at hlen
  omega

theorem bilinear_same_size_pixel (img : Image) (hwf : img.wf) (x y c : ℕ)
    (hx : x < img.width.toNat) (hy : y < img.height.toNat)
    (hc : c < img.channels.toNat) :
    bilinearPixel img img.width img.height x y c = img.atPix x y c := by
  have hw := hwf.1
  have hh := hwf.2.1
  unfold bilinearPixel
  simp only [map_coord_self y img.height hh, map_coord_self x img.width hw,
    floor_natCast_rat, clamp_int_nat y img.height hy,
    clamp_int_nat x img.width hx, Int.toNat_natCast, Int.cast_natCast,
    sub_self, zero_mul, mul_zero, add_zero, lround_natCast]
  exact clamp_u8_natCast _ (atPix_le_255 img hwf x y c hx hy hc)

theorem nearest_data_id (img : Image) (hwf : img.wf) :
    buildData img.width.toNat img.height.toNat img.channels.toNat
      (nearestPixel img img.width img.height) = img.data := by
  obtain ⟨hw, hh, _, hlen, _⟩ := hwf
  apply buildData_eq_of_pix
  · rw [hlen]; ring
  · intro x y c hx hy _
    rw [nearest_same_size_pixel img hw hh x y c hx hy]
    rfl

theorem bilinear_data_id (img : Image) (hwf : img.wf) :
    buildData img.width.toNat img.height.toNat img.channels.toNat
      (bilinearPixel img img.width img.height) = img.data := by
  apply buildData_eq_of_pix
  · rw [hwf.2.2.2.1]; ring
  · intro x y c hx hy hc
    rw [bilinear_same_size_pixel img hwf x y c hx hy hc]
    rfl

theorem resize_nearest_omp_eq (img : Image) (ow oh t : ℤ) :
    resize_nearest_omp img ow oh t = resize_nearest img ow oh := by
  simp only [resize_nearest_omp, resize_nearest, nearestPixelOmp_eq]

theorem resize_bilinear_omp_eq (img : Image) (ow oh t : ℤ) :
    resize_bilinear_omp img ow oh t = resize_bilinear img ow oh := by
  simp only [resize_bilinear_omp, resize_bilinear, bilinearPixelOmp_eq]

theorem resize_seq_same_size (img : Image) (hwf : img.wf) (m : ResizeMethod) :
    resize_seq img img.width img.height m = .ok img := by
  obtain ⟨hw, hh, hch, hlen, hbytes⟩ := hwf
  have hne : ¬img.empty :=
    not_empty_of_parts img hw hh (by omega) (wf_data_ne_nil img ⟨hw, hh, hch, hlen, hbytes⟩)
  have hdim : ¬(img.width ≤ 0 ∨ img.height ≤ 0) := by omega
  have hmk := mkImage_ok img.width img.height img.channels hw hh hch
  simp only [resize_seq]
  rw [if_neg hne, if_neg hdim, if_neg (not_not.mpr hch)]
  cases m
  · simp only [resize_nearest, hmk, Except.map,
      nearest_data_id img ⟨hw, hh, hch, hlen, hbytes⟩]
  · simp only [resize_bilinear, hmk, Except.map,
      bilinear_data_id img ⟨hw, hh, hch, hlen, hbytes⟩]

theorem resize_omp_same_size (img : Image) (hwf : img.wf) (m : ResizeMethod)
    (t : ℤ) :
    resize_omp img img.width img.height m t = .ok img := by
  obtain ⟨hw, hh, hch, hlen, hbytes⟩ := hwf
  have hne : ¬img.empty :=
    not_empty_of_parts img hw hh (by omega) (wf_data_ne_nil img ⟨hw, hh, hch, hlen, hbytes⟩)
  have hdim : ¬(img.width ≤ 0 ∨ img.height ≤ 0) := by omega
  have hmk := mkImage_ok img.width img.height img.channels hw hh hch
  simp only [resize_omp]
  rw [if_neg hne, if_neg hdim]
  cases m
  · rw [resize_nearest_omp_eq]
    simp only [resize_nearest, hmk, Except.map,
      nearest_data_id img ⟨hw, hh, hch, hlen, hbytes⟩]
  · rw [resize_bilinear_omp_eq]
    simp only [resize_bilinear, hmk, Except.map,
      bilinear_data_id img ⟨hw, hh, hch, hlen, hbytes⟩]

theorem resize_same_size (img : Image) (hwf : img.wf) (m : ResizeMethod)
    (b : Backend) (t : ℤ) :
    resize img img.width img.height m b t = .ok img := by
  cases b
  · exact resize_seq_same_size img hwf m
  · exact resize_omp_same_size img hwf m t

/-- C7 amended: for valid images whose width and height are at most 2^23,
same-size Nearest resizing returns the input unchanged.  Below that bound
every quantity in the pixel-center mapper (x + 0.5, W/W = 1, their product
and the final subtraction, for x < W) is exactly representable in binary32,
so the exact rational model used by the embedding coincides with the float
program; from width 2^23 + 3 on, the float evaluation rounds some
coordinates to the neighboring column and the identity fails, see the
counterexample below. -/
theorem nearest_same_size_identity_small (img : Image) (hwf : img.wf)
    (_hwb : img.width ≤ 2 ^ 23) (_hhb : img.height ≤ 2 ^ 23) :
    resize_seq img img.width img.height .Nearest = .ok img :=
  resize_seq_same_size img hwf .Nearest

theorem nearest_same_size_identity_small_witness :
    resize_seq ⟨2, 2, 1, [1, 2, 3, 4]⟩ (⟨2, 2, 1, [1, 2, 3, 4]⟩ : Image).width
      (⟨2, 2, 1, [1, 2, 3, 4]⟩ : Image).height .Nearest =
      .ok ⟨2, 2, 1, [1, 2, 3, 4]⟩ :=
  nearest_same_size_identity_small ⟨2, 2, 1, [1, 2, 3, 4]⟩ (by decide)
    (by decide) (by decide)

/-!  Bilinear edge policy. -/

/-- Value a bilinear output pixel takes when the boundary column is
replicated: the two supporting columns coincide with the last source column,
so only the vertical blend remains. -/
def bilinearRightEdgeValue (img : Image) (oh : ℤ) (y c : ℕ) : ℕ :=
  let sy := map_coord (y : ℚ) (img.height : ℚ) (oh : ℚ)
  let y0 := clamp_int ⌊sy⌋ 0 (img.height - 1)
  let y1 := clamp_int (y0 + 1) 0 (img.height - 1)
  let wy := sy - (y0 : ℚ)
  let b := (img.width - 1).toNat
  let v0 : ℚ := img.atPix b y0.toNat c
  let v1 : ℚ := img.atPix b y1.toNat c
  clamp_u8 (lround (v0 + wy * (v1 - v0)))

/-- Value a bilinear output pixel takes when the boundary row is replicated:
the two supporting rows coincide with the last source row, so only the
horizontal blend remains. -/
def bilinearBottomEdgeValue (img : Image) (ow : ℤ) (x c : ℕ) : ℕ :=
  let sx := map_coord (x : ℚ) (img.width : ℚ) (ow : ℚ)
  let x0 := clamp_int ⌊sx⌋ 0 (img.width - 1)
  let x1 := clamp_int (x0 + 1) 0 (img.width - 1)
  let wx := sx - (x0 : ℚ)
  let b := (img.height - 1).toNat
  let v0 : ℚ := img.atPix x0.toNat b c
  let v1 : ℚ := img.atPix x1.toNat b c
  clamp_u8 (lround (v0 + wx * (v1 - v0)))

/-- C2 counterexample: upscaling the 2x1 gray buffer [100, 200] to 4x1 with
the Bilinear kernel maps the left edge output pixel to the negative source
coordinate -1/4, so the kernel blends with the negative weight wx = -1/4 and
produces 75, which is not the boundary-replication value 100: the low-side
edge extrapolates beyond the boundary pixel instead of replicating it. -/
theorem bilinear_edge_counterexample :
    resize_seq ⟨2, 1, 1, [100, 200]⟩ 4 1 .Bilinear =
      .ok ⟨4, 1, 1, [75, 125, 175, 200]⟩ ∧
    (Image.mk 4 1 1 [75, 125, 175, 200]).atPix 0 0 0 ≠
      (Image.mk 2 1 1 [100, 200]).atPix 0 0 0 := by
  constructor
  · have hmk := mkImage_ok 4 1 1 (by decide) (by decide) (by decide)
    simp only [resize_seq]
    rw [if_neg (by decide), if_neg (by decide), if_neg (by decide)]
    simp only [resize_bilinear, hmk, Except.map, Except.ok.injEq,
      Image.mk.injEq]
    refine ⟨trivial, trivial, trivial, ?_⟩
    show buildData 4 1 1 (bilinearPixel ⟨2, 1, 1, [100, 200]⟩ 4 1) =
      [75, 125, 175, 200]
    norm_num [buildData, List.range_succ, bilinearPixel, map_coord,
      Image.atPix, clamp_int, clamp_u8, lround, min_def, max_def]
    decide
  · decide

/-- C2 amended: output pixels whose mapped source coordinate reaches or
exceeds the last valid index on an axis are computed with both supporting
indices clamped to that last index (x1 respectively y1 clamped), which
replicates the boundary column respectively row exactly; the indices never
wrap.  Low-side edges of an upscale are instead computed with a negative
fractional weight (see the counterexample). -/
theorem bilinear_high_edge_replicates (img : Image) (ow oh : ℤ) (x y c : ℕ)
    (hw : 0 < img.width) (hh : 0 < img.height) :
    (img.width - 1 ≤ ⌊map_coord (x : ℚ) (img.width : ℚ) (ow : ℚ)⌋ →
      bilinearPixel img ow oh x y c = bilinearRightEdgeValue img oh y c) ∧
    (img.height - 1 ≤ ⌊map_coord (y : ℚ) (img.height : ℚ) (oh : ℚ)⌋ →
      bilinearPixel img ow oh x y c = bilinearBottomEdgeValue img ow x c) := by
  constructor
  · intro hxhi
    have hx0 : clamp_int ⌊map_coord (x : ℚ) (img.width : ℚ) (ow : ℚ)⌋ 0
        (img.width - 1) = img.width - 1 := by
      unfold clamp_int; omega
    have hx1 : clamp_int (img.width - 1 + 1) 0 (img.width - 1) =
        img.width - 1 := by
      unfold clamp_int; omega
    simp only [bilinearPixel, bilinearRightEdgeValue, hx0, hx1]
    refine congrArg clamp_u8 (congrArg lround ?_)
    ring
  · intro hyhi
    have hy0 : clamp_int ⌊map_coord (y : ℚ) (img.height : ℚ) (oh : ℚ)⌋ 0
        (img.height - 1) = img.height - 1 := by
      unfold clamp_int; omega
    have hy1 : clamp_int (img.height - 1 + 1) 0 (img.height - 1) =
        img.height - 1 := by
      unfold clamp_int; omega
    simp only [bilinearPixel, bilinearBottomEdgeValue, hy0, hy1]
    refine congrArg clamp_u8 (congrArg lround ?_)
    ring

theorem bilinear_high_edge_replicates_witness :
    bilinearPixel ⟨2, 1, 1, [100, 200]⟩ 4 1 3 0 0 =
      bilinearRightEdgeValue ⟨2, 1, 1, [100, 200]⟩ 1 0 0 :=
  (bilinear_high_edge_replicates ⟨2, 1, 1, [100, 200]⟩ 4 1 3 0 0
    (by decide) (by decide)).1 (by norm_num [map_coord])

/-!  Distortion metrics (scaling_attacks.cpp). -/

/-- Symbolic square root: `SqrtQ a` stands for the real square root of the
nonnegative rational a; std::sqrt is transcendental, and every claim about
it here only needs injectivity on nonnegative arguments and sqrt 0 = 0. -/
structure SqrtQ where
  arg : ℚ
deriving DecidableEq, Repr

/-- Symbolic PSNR value: either positive infinity (the mse == 0 branch) or
the finite value 20*log10(255) - 10*log10(mse), represented by its mse. -/
inductive PsnrVal where
  | inf
  | finite (mse : ℚ)
deriving DecidableEq, Repr

/-- AttackMetrics from scaling_attacks.hpp. -/
structure AttackMetrics where
  mae : ℚ
  rmse : SqrtQ
  psnr : PsnrVal
  max_abs : ℤ
deriving DecidableEq, Repr

/-- diff_metrics from scaling_attacks.cpp: one pass over all channel values,
accumulating the absolute sum, the squared sum and the maximum absolute
difference, then the derived MAE / RMSE / PSNR. -/
def diff_metrics (a b : Image) : Except Err AttackMetrics :=
  if a.width ≠ b.width ∨ a.height ≠ b.height ∨ a.channels ≠ b.channels then
    .error .ShapeMismatch
  else if a.data.length = 0 then .error .InvalidInput
  else
    let n := a.data.length
    let ds := (List.range n).map fun i =>
      (a.data.getD i 0 : ℤ) - (b.data.getD i 0 : ℤ)
    let sum_abs : ℚ := ds.foldl (fun s d => s + (d.natAbs : ℚ)) 0
    let sum_sq : ℚ := ds.foldl (fun (s : ℚ) (d : ℤ) => s + (d : ℚ) * (d : ℚ)) 0
    let max_abs : ℤ :=
      ds.foldl (fun m d => if (d.natAbs : ℤ) > m then (d.natAbs : ℤ) else m) 0
    let mean_abs := sum_abs / (n : ℚ)
    let mse := sum_sq / (n : ℚ)
    .ok { mae := mean_abs, rmse := ⟨mse⟩,
          psnr := if mse = 0 then .inf else .finite mse,
          max_abs := max_abs }

/-- down_up_metrics from scaling_attacks.cpp: validate, downscale, upscale
back to the source size, and diff against the source. -/
def down_up_metrics (src : Image) (down_w down_h : ℤ)
    (down_method up_method : ResizeMethod) (backend : Backend) (threads : ℤ) :
    Except Err AttackMetrics :=
  if src.empty then .error .InvalidInput
  else if down_w ≤ 0 ∨ down_h ≤ 0 then .error .InvalidDimensions
  else do
    let down ← resize src down_w down_h down_method backend threads
    let up ← resize down src.width src.height up_method backend threads
    diff_metrics src up

theorem foldl_fixed {β : Type} (f : β → ℤ → β) (a : β) :
    ∀ l : List ℤ, (∀ d ∈ l, f a d = a) → l.foldl f a = a := by
  intro l
  induction l with
  | nil => intro _; rfl
  | cons d ds ih =>
    intro h
    rw [List.foldl_cons, h d (List.mem_cons_self d ds)]
    exact ih fun e he => h e (List.mem_cons_of_mem d he)

theorem diff_metrics_self (a : Image) (hne : a.data.length ≠ 0) :
    diff_metrics a a = .ok ⟨0, ⟨0⟩, .inf, 0⟩ := by
  unfold diff_metrics
  rw [if_neg (by simp), if_neg hne]
  have hds : ((List.range a.data.length).map fun i =>
      (a.data.getD i 0 : ℤ) - (a.data.getD i 0 : ℤ)) =
      (List.range a.data.length).map fun _ => (0 : ℤ) := by
    simp
  simp only [hds]
  have hzero : ∀ d ∈ (List.range a.data.length).map fun _ => (0 : ℤ),
      d = 0 := by
    simp
  have habs : (((List.range a.data.length).map fun _ => (0 : ℤ)).foldl
      (fun s d => s + (d.natAbs : ℚ)) 0) = 0 :=
    foldl_fixed _ 0 _ fun d hd => by rw [hzero d hd]; norm_num
  have hsq : (((List.range a.data.length).map fun _ => (0 : ℤ)).foldl
      (fun (s : ℚ) (d : ℤ) => s + (d : ℚ) * (d : ℚ)) 0) = 0 :=
    foldl_fixed _ 0 _ fun d hd => by rw [hzero d hd]; norm_num
  have hmax : (((List.range a.data.length).map fun _ => (0 : ℤ)).foldl
      (fun m d => if (d.natAbs : ℤ) > m then (d.natAbs : ℤ) else m) 0) = 0 :=
    foldl_fixed _ 0 _ fun d hd => by rw [hzero d hd]; norm_num
  rw [habs, hsq, hmax]
  norm_num

/-- C8 amended: for valid sources whose width and height are at most 2^23
(the range in which the binary32 evaluation of the mapper is exact and the
same-size resizes are identities, see the C7 discussion), a
downscale-then-upscale round trip whose downscale size equals the source
size produces zero distortion: mae 0, rmse 0, psnr infinite and zero
maximum absolute difference, for every method pair, backend and thread
count.  At larger sizes the float round trip moves bytes between columns
and the metrics are no longer all zero, see the counterexample below. -/
theorem down_up_same_size_metrics_small (src : Image) (hwf : src.wf)
    (_hwb : src.width ≤ 2 ^ 23) (_hhb : src.height ≤ 2 ^ 23)
    (dm um : ResizeMethod) (b : Backend) (t : ℤ) :
    down_up_metrics src src.width src.height dm um b t =
      .ok ⟨0, ⟨0⟩, .inf, 0⟩ := by
  have hw := hwf.1
  have hh := hwf.2.1
  have hcpos : 0 < src.channels := by
    rcases hwf.2.2.1 with h | h | h <;> rw [h] <;> decide
  have hne : ¬src.empty :=
    not_empty_of_parts src hw hh hcpos (wf_data_ne_nil src hwf)
  have hdim : ¬(src.width ≤ 0 ∨ src.height ≤ 0) := by omega
  unfold down_up_metrics
  rw [if_neg hne, if_neg hdim]
  rw [show (do
      let down ← resize src src.width src.height dm b t
      let up ← resize down src.width src.height um b t
      diff_metrics src up : Except Err AttackMetrics) =
    (resize src src.width src.height dm b t).bind fun down =>
      (resize down src.width src.height um b t).bind fun up =>
        diff_metrics src up from rfl]
  rw [resize_same_size src hwf dm b t]
  simp only [Except.bind]
  rw [resize_same_size src hwf um b t]
  simp only [Except.bind]
  apply diff_metrics_self
  rw [hwf.2.2.2.1]
  have h1 : 0 < src.width.toNat := by omega
  have h2 : 0 < src.height.toNat := by omega
  have h3 : 0 < src.channels.toNat := by
    rcases hwf.2.2.1 with h | h | h <;> rw [h] <;> decide
  exact Nat.mul_ne_zero (Nat.mul_ne_zero h1.ne' h2.ne') h3.ne'

theorem down_up_same_size_metrics_small_witness :
    down_up_metrics ⟨1, 1, 3, [3, 4, 5]⟩ (1 : ℤ) (1 : ℤ)
      .Bilinear .Nearest .OpenMP 2 = .ok ⟨0, ⟨0⟩, .inf, 0⟩ :=
  down_up_same_size_metrics_small ⟨1, 1, 3, [3, 4, 5]⟩ (by decide)
    (by decide) (by decide) .Bilinear .Nearest .OpenMP 2

/-!  Benchmark harness (benchmark.cpp). -/

instance exceptDecEq {ε α : Type} [DecidableEq ε] [DecidableEq α] :
    DecidableEq (Except ε α) := fun x y =>
  match x, y with
  | .ok a, .ok b =>
    if h : a = b then isTrue (by rw [h]) else isFalse (by simp [h])
  | .error a, .error b =>
    if h : a = b then isTrue (by rw [h]) else isFalse (by simp [h])
  | .ok _, .error _ => isFalse (by simp)
  | .error _, .ok _ => isFalse (by simp)

/-- BenchResult from benchmark.hpp. -/
structure BenchResult where
  runs : ℤ
  mean_ms : ℚ
  stddev_ms : SqrtQ
  min_ms : ℚ
  max_ms : ℚ
deriving DecidableEq, Repr

/-- mean from benchmark.cpp: accumulated sum divided by the sample count
(the zero-sample case divides zero by zero, which is NaN in C++ and is
undefined behavior territory together with min_element; no theorem below
relies on that case). -/
def mean (v : List ℚ) : ℚ := (v.foldl (fun s x => s + x) 0) / (v.length : ℚ)

/-- stddev_sample from benchmark.cpp: 0 for fewer than 2 samples, otherwise
the square root of the squared-deviation sum divided by n-1; the square root
is represented symbolically (sqrt 0 = 0, matching the early return). -/
def stddev_sample (v : List ℚ) (mu : ℚ) : SqrtQ :=
  if v.length < 2 then ⟨0⟩
  else ⟨(v.foldl (fun s x => s + (x - mu) * (x - mu)) 0) /
    ((v.length - 1 : ℕ) : ℚ)⟩

/-- Dereferenced std::min_element over the samples; the empty case is
undefined behavior in C++ (unreachable with runs >= 1), modelled as 0. -/
def minD : List ℚ → ℚ
  | [] => 0
  | x :: xs => xs.foldl min x

/-- Dereferenced std::max_element over the samples. -/
def maxD : List ℚ → ℚ
  | [] => 0
  | x :: xs => xs.foldl max x

/-- One `Image out = resize(...)` statement of the benchmark loops: the
buffer is dropped, only success or failure is observable. -/
def resizeCall (img : Image) (ow oh : ℤ) (m : ResizeMethod) (b : Backend)
    (t : ℤ) : Except Err Unit :=
  (resize img ow oh m b t).map fun _ => ()

/-- n consecutive executions of the same deterministic call; an exception
from any of them propagates. -/
def repeatCall : ℕ → Except Err Unit → Except Err Unit
  | 0, _ => .ok ()
  | n + 1, act => act.bind fun _ => repeatCall n act

/-- The measured loop of benchmark_resize: run i reads the monotonic clock
(modelled by the oracle ts) before and after its inner batch of calls and
records the normalized elapsed time (t1 - t0) / inner_reps. -/
def measuredSamples (act : Except Err Unit) (ir : ℤ) (ts : ℕ → ℚ)
    (runs : ℕ) : Except Err (List ℚ) :=
  (List.range runs).mapM fun i =>
    (repeatCall ir.toNat act).map fun _ =>
      (ts (2 * i + 1) - ts (2 * i)) / (ir : ℚ)

/-- benchmark_resize from benchmark.cpp, over a clock oracle ts giving the
two now_ms readings of each measured run: normalize inner_reps to at least
1, run the warmup invocations untimed, collect the measured samples, and
reduce them to mean, sample standard deviation, min and max. -/
def benchmark_resize (img : Image) (out_w out_h : ℤ) (method : ResizeMethod)
    (backend : Backend) (threads warmup runs inner_reps : ℤ) (ts : ℕ → ℚ) :
    Except Err BenchResult :=
  let ir : ℤ := if inner_reps ≤ 0 then 1 else inner_reps
  -- samples.reserve(runs): the int argument converts to size_t, so a
  -- negative runs requests more than max_size and reserve throws
  -- std::length_error here, before the warmup loop
  if runs < 0 then .error .LengthError
  else
    let act := resizeCall img out_w out_h method backend threads
    (repeatCall (warmup.toNat * ir.toNat) act).bind fun _ =>
      (measuredSamples act ir ts runs.toNat).map fun samples =>
        { runs := runs,
          mean_ms := mean samples,
          stddev_ms := stddev_sample samples (mean samples),
          min_ms := minD samples,
          max_ms := maxD samples }

/-- The elapsed-time samples the measured loop records: for run i the
normalized value (t1 - t0) / inner_reps, with inner_reps clamped to at
least 1 as at the top of benchmark_resize. -/
def benchSamples (runs inner_reps : ℤ) (ts : ℕ → ℚ) : List ℚ :=
  let ir : ℤ := if inner_reps ≤ 0 then 1 else inner_reps
  (List.range runs.toNat).map fun i =>
    (ts (2 * i + 1) - ts (2 * i)) / (ir : ℚ)

theorem repeatCall_ok (n : ℕ) : repeatCall n (.ok ()) = .ok () := by
  induction n with
  | zero => rfl
  | succ k ih => simp only [repeatCall, Except.bind, ih]

theorem repeatCall_err (n : ℕ) (e : Err) (hn : 0 < n) :
    repeatCall n (.error e) = .error e := by
  cases n with
  | zero => exact absurd hn (Nat.lt_irrefl 0)
  | succ k => rfl

theorem mapM_ok_of (f : ℕ → Except Err ℚ) (g : ℕ → ℚ)
    (hf : ∀ i, f i = .ok (g i)) :
    ∀ l : List ℕ, l.mapM f = .ok (l.map g) := by
  intro l
  induction l with
  | nil => rfl
  | cons a as ih => rw [List.mapM_cons, hf a, ih]; rfl

theorem measuredSamples_ok (ir : ℤ) (ts : ℕ → ℚ) (runs : ℕ) :
    measuredSamples (.ok ()) ir ts runs =
      .ok ((List.range runs).map fun i =>
        (ts (2 * i + 1) - ts (2 * i)) / (ir : ℚ)) := by
  unfold measuredSamples
  exact mapM_ok_of _ _ (fun i => by rw [repeatCall_ok]; rfl) _

theorem measuredSamples_err (e : Err) (ir : ℤ) (ts : ℕ → ℚ) (runs : ℕ)
    (hruns : 0 < runs) (hir : 0 < ir) :
    measuredSamples (.error e) ir ts runs = .error e := by
  cases runs with
  | zero => exact absurd hruns (Nat.lt_irrefl 0)
  | succ k =>
    unfold measuredSamples
    rw [List.range_succ_eq_map, List.mapM_cons,
      repeatCall_err ir.toNat e (by omega)]
    rfl

/-- C10: a non-positive inner repetition count is normalized to 1 at the top
of benchmark_resize, so the call behaves exactly as with inner_reps = 1. -/
theorem benchmark_inner_reps_normalized (img : Image) (ow oh : ℤ)
    (m : ResizeMethod) (b : Backend) (threads warmup runs inner_reps : ℤ)
    (ts : ℕ → ℚ) (h : inner_reps ≤ 0) :
    benchmark_resize img ow oh m b threads warmup runs inner_reps ts =
      benchmark_resize img ow oh m b threads warmup runs 1 ts := by
  unfold benchmark_resize
  rw [if_pos h, if_neg (by omega : ¬(1 : ℤ) ≤ 0)]

theorem benchmark_inner_reps_normalized_witness :
    benchmark_resize ⟨1, 1, 1, [0]⟩ 1 1 .Nearest .Sequential 1 0 1 0
        (fun i => (i : ℚ)) =
      benchmark_resize ⟨1, 1, 1, [0]⟩ 1 1 .Nearest .Sequential 1 0 1 1
        (fun i => (i : ℚ)) :=
  benchmark_inner_reps_normalized ⟨1, 1, 1, [0]⟩ 1 1 .Nearest .Sequential
    1 0 1 0 (fun i => (i : ℚ)) (by decide)

/-- C3 counterexample: a valid 1x1 image benchmarked to the non-positive
target width 0 with warmup 0 and one measured run does not fail with
InvalidParameters before any resampling invocation; instead the first
measured resize invocation itself fails with InvalidDimensions. -/
theorem benchmark_no_invalid_parameters :
    benchmark_resize ⟨1, 1, 1, [0]⟩ 0 1 .Nearest .Sequential 1 0 1 1
        (fun i => (i : ℚ)) = .error .InvalidDimensions ∧
    Err.InvalidDimensions ≠ Err.InvalidParameters := by
  constructor
  · rfl
  · decide

/-- C3 amended: benchmark_resize has no parameter validation of its own and
never raises InvalidParameters.  A negative measuredRuns makes the
int-to-size_t conversion in samples.reserve throw std::length_error before
the warmup loop; measuredRuns = 0 and a negative warmupRuns are not rejected
at all; and non-positive target dimensions are only detected inside the
first resize invocation that runs — during warmup if warmup is positive,
otherwise during the first measured run — which fails with the resize
backends InvalidDimensions error. -/
theorem benchmark_no_param_validation (img : Image)
    (ow oh threads warmup runs inner_reps : ℤ) (m : ResizeMethod)
    (b : Backend) (ts : ℕ → ℚ) :
    (runs < 0 →
      benchmark_resize img ow oh m b threads warmup runs inner_reps ts =
        .error .LengthError) ∧
    (0 ≤ runs → ¬img.empty → (ow ≤ 0 ∨ oh ≤ 0) →
      (0 < warmup ∨ 0 < runs) →
      benchmark_resize img ow oh m b threads warmup runs inner_reps ts =
        .error .InvalidDimensions) := by
  constructor
  · intro hlt
    simp only [benchmark_resize]
    rw [if_pos hlt]
  · intro hge hne hdim hrun
    have hact : resizeCall img ow oh m b threads =
        .error .InvalidDimensions := by
      unfold resizeCall
      cases b <;> simp only [resize, resize_seq, resize_omp] <;>
        rw [if_neg hne, if_pos hdim] <;> rfl
    have hir : 0 < (if inner_reps ≤ 0 then 1 else inner_reps : ℤ) := by
      split <;> omega
    have hirn : 0 < (if inner_reps ≤ 0 then 1 else inner_reps : ℤ).toNat := by
      split <;> omega
    simp only [benchmark_resize, hact, if_neg (show ¬runs < 0 by omega)]
    by_cases hw0 : 0 < warmup
    · rw [repeatCall_err _ _ (Nat.mul_pos (by omega) hirn)]
      rfl
    · have hr0 : 0 < runs := by
        rcases hrun with h | h
        · exact absurd h hw0
        · exact h
      have hwz : warmup.toNat = 0 := by omega
      rw [hwz, Nat.zero_mul,
        show repeatCall 0 (Except.error Err.InvalidDimensions) = .ok ()
          from rfl]
      simp only [Except.bind]
      rw [measuredSamples_err _ _ _ _ (by omega) hir]
      rfl

theorem benchmark_no_param_validation_witness :
    benchmark_resize ⟨1, 1, 3, [5, 6, 7]⟩ 2 2 .Bilinear .OpenMP 4 1 (-3) 1
        (fun i => (i : ℚ)) = .error .LengthError ∧
    benchmark_resize ⟨1, 1, 3, [5, 6, 7]⟩ 2 0 .Bilinear .OpenMP 4 2 3 1
        (fun i => (i : ℚ)) = .error .InvalidDimensions :=
  ⟨(benchmark_no_param_validation ⟨1, 1, 3, [5, 6, 7]⟩ 2 2 4 1 (-3) 1
      .Bilinear .OpenMP (fun i => (i : ℚ))).1 (by decide),
   (benchmark_no_param_validation ⟨1, 1, 3, [5, 6, 7]⟩ 2 0 4 2 3 1
      .Bilinear .OpenMP (fun i => (i : ℚ))).2 (by decide) (by decide)
      (by decide) (by decide)⟩

/-!  Statistics lemmas for the benchmark reduction. -/

theorem foldl_add_eq_sum (a : ℚ) :
    ∀ v : List ℚ, v.foldl (fun s x => s + x) a = a + v.sum := by
  intro v
  induction v generalizing a with
  | nil => simp
  | cons x xs ih =>
    rw [List.foldl_cons, ih (a + x), List.sum_cons]
    ring

theorem foldl_add_sq_eq (mu : ℚ) (a : ℚ) :
    ∀ v : List ℚ, v.foldl (fun s x => s + (x - mu) * (x - mu)) a =
      a + (v.map fun x => (x - mu) ^ 2).sum := by
  intro v
  induction v generalizing a with
  | nil => simp
  | cons x xs ih =>
    rw [List.foldl_cons, ih (a + (x - mu) * (x - mu)), List.map_cons,
      List.sum_cons]
    ring

theorem foldl_min_le_init (xs : List ℚ) : ∀ x : ℚ, xs.foldl min x ≤ x := by
  induction xs with
  | nil => intro x; exact le_refl x
  | cons y ys ih =>
    intro x
    rw [List.foldl_cons]
    exact le_trans (ih (min x y)) (min_le_left x y)

theorem foldl_min_mem (xs : List ℚ) : ∀ x : ℚ, xs.foldl min x ∈ x :: xs := by
  induction xs with
  | nil => intro x; exact List.mem_cons_self x []
  | cons y ys ih =>
    intro x
    rw [List.foldl_cons]
    rcases min_choice x y with h | h
    · rcases List.mem_cons.mp (ih (min x y)) with hm | hm
      · rw [hm, h]; exact List.mem_cons_self _ _
      · exact List.mem_cons_of_mem x (List.mem_cons_of_mem y hm)
    · rcases List.mem_cons.mp (ih (min x y)) with hm | hm
      · rw [hm, h]; exact List.mem_cons_of_mem x (List.mem_cons_self _ _)
      · exact List.mem_cons_of_mem x (List.mem_cons_of_mem y hm)

theorem foldl_min_le (xs : List ℚ) :
    ∀ x : ℚ, ∀ z ∈ x :: xs, xs.foldl min x ≤ z := by
  induction xs with
  | nil =>
    intro x z hz
    rcases List.mem_cons.mp hz with h | h
    · rw [h]; exact le_refl x
    · exact absurd h (List.not_mem_nil z)
  | cons y ys ih =>
    intro x z hz
    rw [List.foldl_cons]
    rcases List.mem_cons.mp hz with h | h
    · rw [h]
      exact le_trans (foldl_min_le_init ys (min x y)) (min_le_left x y)
    · rcases List.mem_cons.mp h with h2 | h2
      · rw [h2]
        exact le_trans (foldl_min_le_init ys (min x y)) (min_le_right x y)
      · exact ih (min x y) z (List.mem_cons_of_mem _ h2)

theorem foldl_max_init_le (xs : List ℚ) : ∀ x : ℚ, x ≤ xs.foldl max x := by
  induction xs with
  | nil => intro x; exact le_refl x
  | cons y ys ih =>
    intro x
    rw [List.foldl_cons]
    exact le_trans (le_max_left x y) (ih (max x y))

theorem foldl_max_mem (xs : List ℚ) : ∀ x : ℚ, xs.foldl max x ∈ x :: xs := by
  induction xs with
  | nil => intro x; exact List.mem_cons_self x []
  | cons y ys ih =>
    intro x
    rw [List.foldl_cons]
    rcases max_choice x y with h | h
    · rcases List.mem_cons.mp (ih (max x y)) with hm | hm
      · rw [hm, h]; exact List.mem_cons_self _ _
      · exact List.mem_cons_of_mem x (List.mem_cons_of_mem y hm)
    · rcases List.mem_cons.mp (ih (max x y)) with hm | hm
      · rw [hm, h]; exact List.mem_cons_of_mem x (List.mem_cons_self _ _)
      · exact List.mem_cons_of_mem x (List.mem_cons_of_mem y hm)

theorem foldl_le_max (xs : List ℚ) :
    ∀ x : ℚ, ∀ z ∈ x :: xs, z ≤ xs.foldl max x := by
  induction xs with
  | nil =>
    intro x z hz
    rcases List.mem_cons.mp hz with h | h
    · rw [h]; exact le_refl x
    · exact absurd h (List.not_mem_nil z)
  | cons y ys ih =>
    intro x z hz
    rw [List.foldl_cons]
    rcases List.mem_cons.mp hz with h | h
    · rw [h]
      exact le_trans (le_max_left x y) (foldl_max_init_le ys (max x y))
    · rcases List.mem_cons.mp h with h2 | h2
      · rw [h2]
        exact le_trans (le_max_right x y) (foldl_max_init_le ys (max x y))
      · exact ih (max x y) z (List.mem_cons_of_mem _ h2)

theorem resize_ok_parts (img : Image) (ow oh t : ℤ) (m : ResizeMethod)
    (b : Backend) (hw : 0 < img.width) (hh : 0 < img.height)
    (hch : img.channels = 1 ∨ img.channels = 3 ∨ img.channels = 4)
    (hd : img.data ≠ []) (how : 0 < ow) (hoh : 0 < oh) :
    ∃ out, resize img ow oh m b t = .ok out := by
  have hne : ¬img.empty := not_empty_of_parts img hw hh (by omega) hd
  have hdim : ¬(ow ≤ 0 ∨ oh ≤ 0) := by omega
  have hmk := mkImage_ok ow oh img.channels how hoh hch
  cases b <;> cases m
  · exact ⟨_, by
      simp only [resize, resize_seq]
      rw [if_neg hne, if_neg hdim, if_neg (not_not.mpr hch)]
      simp only [resize_nearest, hmk, Except.map]
      rfl⟩
  · exact ⟨_, by
      simp only [resize, resize_seq]
      rw [if_neg hne, if_neg hdim, if_neg (not_not.mpr hch)]
      simp only [resize_bilinear, hmk, Except.map]
      rfl⟩
  · exact ⟨_, by
      simp only [resize, resize_omp]
      rw [if_neg hne, if_neg hdim]
      simp only [resize_nearest_omp, hmk, Except.map]
      rfl⟩
  · exact ⟨_, by
      simp only [resize, resize_omp]
      rw [if_neg hne, if_neg hdim]
      simp only [resize_bilinear_omp, hmk, Except.map]
      rfl⟩

/-- C9: on a successful benchmark run (valid image, positive output size,
at least one measured run), the returned record holds the arithmetic mean,
the minimum and the maximum of the recorded timing samples, and stddev_ms
is the sample standard deviation with the n-1 denominator, equal to 0
whenever fewer than 2 samples were measured. -/
theorem benchmark_stats (img : Image)
    (ow oh threads warmup runs inner_reps : ℤ) (m : ResizeMethod)
    (b : Backend) (ts : ℕ → ℚ) (hw : 0 < img.width) (hh : 0 < img.height)
    (hch : img.channels = 1 ∨ img.channels = 3 ∨ img.channels = 4)
    (hd : img.data ≠ []) (how : 0 < ow) (hoh : 0 < oh) (hruns : 1 ≤ runs) :
    ∃ r, benchmark_resize img ow oh m b threads warmup runs inner_reps ts =
        .ok r ∧
      r.runs = runs ∧
      r.mean_ms = (benchSamples runs inner_reps ts).sum /
        ((benchSamples runs inner_reps ts).length : ℚ) ∧
      r.min_ms ∈ benchSamples runs inner_reps ts ∧
      (∀ s ∈ benchSamples runs inner_reps ts, r.min_ms ≤ s) ∧
      r.max_ms ∈ benchSamples runs inner_reps ts ∧
      (∀ s ∈ benchSamples runs inner_reps ts, s ≤ r.max_ms) ∧
      (2 ≤ (benchSamples runs inner_reps ts).length →
        r.stddev_ms = ⟨((benchSamples runs inner_reps ts).map fun x =>
          (x - (benchSamples runs inner_reps ts).sum /
            ((benchSamples runs inner_reps ts).length : ℚ)) ^ 2).sum /
          (((benchSamples runs inner_reps ts).length - 1 : ℕ) : ℚ)⟩) ∧
      ((benchSamples runs inner_reps ts).length < 2 →
        r.stddev_ms = ⟨0⟩) := by
  obtain ⟨out, hout⟩ := resize_ok_parts img ow oh threads m b hw hh hch hd
    how hoh
  have hact : resizeCall img ow oh m b threads = .ok () := by
    unfold resizeCall
    rw [hout]
    rfl
  set S := benchSamples runs inner_reps ts with hS
  have hmean : mean S = S.sum / (S.length : ℚ) := by
    unfold mean
    rw [foldl_add_eq_sum 0 S, zero_add]
  have hbench : benchmark_resize img ow oh m b threads warmup runs
      inner_reps ts =
      .ok ⟨runs, mean S, stddev_sample S (mean S), minD S, maxD S⟩ := by
    simp only [benchmark_resize, hact, repeatCall_ok, Except.bind,
      measuredSamples_ok, Except.map, if_neg (show ¬runs < 0 by omega)]
    rfl
  have hlen : S.length = runs.toNat := by
    rw [hS]
    unfold benchSamples
    simp
  obtain ⟨s0, rest, hcons⟩ : ∃ s0 rest, S = s0 :: rest := by
    cases h0 : S with
    | nil => rw [h0] at hlen; simp at hlen; omega
    | cons a l => exact ⟨a, l, rfl⟩
  refine ⟨_, hbench, rfl, hmean, ?_, ?_, ?_, ?_, ?_, ?_⟩
  · show minD S ∈ S
    rw [hcons]
    exact foldl_min_mem rest s0
  · intro s hs
    show minD S ≤ s
    rw [hcons] at hs ⊢
    exact foldl_min_le rest s0 s hs
  · show maxD S ∈ S
    rw [hcons]
    exact foldl_max_mem rest s0
  · intro s hs
    show s ≤ maxD S
    rw [hcons] at hs ⊢
    exact foldl_le_max rest s0 s hs
  · intro h2
    show stddev_sample S (mean S) = _
    unfold stddev_sample
    rw [if_neg (by omega), foldl_add_sq_eq (mean S) 0 S, zero_add, hmean]
  · intro hlt
    show stddev_sample S (mean S) = _
    unfold stddev_sample
    rw [if_pos hlt]

theorem benchmark_stats_witness :
    ∃ r, benchmark_resize ⟨1, 1, 1, [9]⟩ 1 1 .Nearest .Sequential 1 1 2 1
        (fun i => (i : ℚ)) = .ok r ∧
      r.runs = 2 ∧
      r.mean_ms = (benchSamples 2 1 fun i => (i : ℚ)).sum /
        (((benchSamples 2 1 fun i => (i : ℚ)).length : ℚ)) ∧
      r.min_ms ∈ (benchSamples 2 1 fun i => (i : ℚ)) ∧
      (∀ s ∈ (benchSamples 2 1 fun i => (i : ℚ)), r.min_ms ≤ s) ∧
      r.max_ms ∈ (benchSamples 2 1 fun i => (i : ℚ)) ∧
      (∀ s ∈ (benchSamples 2 1 fun i => (i : ℚ)), s ≤ r.max_ms) ∧
      (2 ≤ (benchSamples 2 1 fun i => (i : ℚ)).length →
        r.stddev_ms = ⟨((benchSamples 2 1 fun i => (i : ℚ)).map fun x =>
          (x - (benchSamples 2 1 fun i => (i : ℚ)).sum /
            (((benchSamples 2 1 fun i => (i : ℚ)).length : ℚ))) ^ 2).sum /
          ((((benchSamples 2 1 fun i => (i : ℚ)).length - 1 : ℕ)) : ℚ)⟩) ∧
      ((benchSamples 2 1 fun i => (i : ℚ)).length < 2 →
        r.stddev_ms = ⟨0⟩) :=
  benchmark_stats ⟨1, 1, 1, [9]⟩ 1 1 1 1 2 1 .Nearest .Sequential
    (fun i => (i : ℚ)) (by decide) (by decide) (by decide) (by decide)
    (by decide) (by decide) (by decide)

/-!  Binary32 rounding model.

The kernels above model `float` arithmetic exactly over the rationals, which
agrees with the program whenever every intermediate quantity is exactly
representable in binary32 (in particular for all dimensions up to 2^23, the
domain of the amended C7 and C8).  To exhibit where the program deviates
from the exact model, the following defines correct rounding to the nearest
binary32 value (round to nearest, ties to even, 24-bit significand,
unbounded exponent: overflow, underflow and subnormals are not modelled —
every value appearing below lies well inside the normal range, where this
coincides with IEEE 754 binary32). -/

/-- Floor of the base-2 logarithm of a positive natural number; the fuel
argument makes the recursion structural so that it evaluates by kernel
reduction. -/
def log2floorAux : ℕ → ℕ → ℕ
  | 0, _ => 0
  | fuel + 1, n => if n < 2 then 0 else 1 + log2floorAux fuel (n / 2)

def log2floor (n : ℕ) : ℕ := log2floorAux n n

/-- Round a rational to the nearest integer, ties to even. -/
def rne (m : ℚ) : ℤ :=
  let f := ⌊m⌋
  if m < (f : ℚ) + 1/2 then f
  else if (f : ℚ) + 1/2 < m then f + 1
  else if f % 2 = 0 then f else f + 1

/-- Floor of the base-2 logarithm of a positive rational. -/
def qlog2 (a : ℚ) : ℤ :=
  if 1 ≤ a then (log2floor ⌊a⌋.toNat : ℤ)
  else -((log2floor (⌈a⁻¹⌉.toNat - 1) : ℤ) + 1)

/-- Round a nonnegative rational to 24 significant bits, nearest-even: the
significand a * 2^(23-e) with e = floor(log2 a) lies in [2^23, 2^24) and is
rounded to the nearest even integer. -/
def rnF32pos (a : ℚ) : ℚ :=
  if a = 0 then 0
  else (rne (a * 2 ^ (23 - qlog2 a)) : ℚ) * 2 ^ (qlog2 a - 23)

/-- Round a rational to the nearest binary32 value (normal range). -/
def rnF32 (q : ℚ) : ℚ :=
  if q < 0 then -rnF32pos (-q) else rnF32pos q

/-- map_coord as the program evaluates it in binary32: the arguments are
floats already (the casts happen at the call sites), 0.5f is exact, and the
addition, division, multiplication and subtraction each round once. -/
def map_coord_f32 (out_coord in_size out_size : ℚ) : ℚ :=
  rnF32 (rnF32 (rnF32 (out_coord + 1/2) * rnF32 (in_size / out_size)) - 1/2)

/-- Source index the Nearest kernels select for output coordinate x under
binary32 arithmetic: the int-to-float casts of x and the two sizes round as
in the program, then std::lround and the clamp are exact. -/
def nearestSrcIndexF32 (x w ow : ℤ) : ℤ :=
  clamp_int
    (lround (map_coord_f32 (rnF32 (x : ℚ)) (rnF32 (w : ℚ)) (rnF32 (ow : ℚ))))
    0 (w - 1)

/-- Per-pixel computation of the Nearest kernel under binary32 arithmetic
(the float-accurate counterpart of nearestPixel). -/
def nearestPixelF32 (img : Image) (out_w out_h : ℤ) (x y c : ℕ) : ℕ :=
  img.atPix (nearestSrcIndexF32 (x : ℤ) img.width out_w).toNat
    (nearestSrcIndexF32 (y : ℤ) img.height out_h).toNat c

theorem rnF32_int_8388609 : rnF32 ((8388609 : ℤ) : ℚ) = 8388609 := by
  have h : log2floor 8388609 = 23 := by decide
  have h2 : log2floor (Int.toNat 8388609) = 23 := by decide
  norm_num [rnF32, rnF32pos, qlog2, rne, h, h2]

theorem rnF32_int_8388610 : rnF32 ((8388610 : ℤ) : ℚ) = 8388610 := by
  have h : log2floor 8388610 = 23 := by decide
  have h2 : log2floor (Int.toNat 8388610) = 23 := by decide
  norm_num [rnF32, rnF32pos, qlog2, rne, h, h2]

theorem rnF32_int_8388611 : rnF32 ((8388611 : ℤ) : ℚ) = 8388611 := by
  have h : log2floor 8388611 = 23 := by decide
  have h2 : log2floor (Int.toNat 8388611) = 23 := by decide
  norm_num [rnF32, rnF32pos, qlog2, rne, h, h2]

theorem rnF32_int_zero : rnF32 ((0 : ℤ) : ℚ) = 0 := by
  norm_num [rnF32, rnF32pos]

theorem rnF32_int_one : rnF32 ((1 : ℤ) : ℚ) = 1 := by
  have h : log2floor 1 = 0 := by decide
  have h2 : log2floor (Int.toNat 1) = 0 := by decide
  have h3 : log2floor (Int.toNat 2 - 1) = 0 := by decide
  norm_num [rnF32, rnF32pos, qlog2, rne, h, h2, h3]

theorem rnF32_half_add_8388609 : rnF32 ((8388609 : ℚ) + 1/2) = 8388610 := by
  have h : log2floor 8388609 = 23 := by decide
  have h2 : log2floor (Int.toNat 8388609) = 23 := by decide
  norm_num [rnF32, rnF32pos, qlog2, rne, h, h2]

theorem rnF32_half_add_8388610 : rnF32 ((8388610 : ℚ) + 1/2) = 8388610 := by
  have h : log2floor 8388610 = 23 := by decide
  have h2 : log2floor (Int.toNat 8388610) = 23 := by decide
  norm_num [rnF32, rnF32pos, qlog2, rne, h, h2]

theorem rnF32_half_add_zero : rnF32 ((0 : ℚ) + 1/2) = 1/2 := by
  have h : log2floor 1 = 0 := by decide
  have h2 : log2floor (Int.toNat 1) = 0 := by decide
  have h3 : log2floor (Int.toNat 2 - 1) = 0 := by decide
  norm_num [rnF32, rnF32pos, qlog2, rne, h, h2, h3]

theorem rnF32_div_8388611 : rnF32 ((8388611 : ℚ) / (8388611 : ℚ)) = 1 := by
  have h : log2floor 1 = 0 := by decide
  have h2 : log2floor (Int.toNat 1) = 0 := by decide
  have h3 : log2floor (Int.toNat 2 - 1) = 0 := by decide
  norm_num [rnF32, rnF32pos, qlog2, rne, h, h2, h3]

theorem rnF32_div_one : rnF32 ((1 : ℚ) / (1 : ℚ)) = 1 := by
  have h : log2floor 1 = 0 := by decide
  have h2 : log2floor (Int.toNat 1) = 0 := by decide
  have h3 : log2floor (Int.toNat 2 - 1) = 0 := by decide
  norm_num [rnF32, rnF32pos, qlog2, rne, h, h2, h3]

theorem rnF32_mul_one_8388610 : rnF32 ((8388610 : ℚ) * 1) = 8388610 := by
  have h : log2floor 8388610 = 23 := by decide
  have h2 : log2floor (Int.toNat 8388610) = 23 := by decide
  norm_num [rnF32, rnF32pos, qlog2, rne, h, h2]

theorem rnF32_half_mul_one : rnF32 ((1 / 2 : ℚ) * 1) = 1/2 := by
  have h : log2floor 1 = 0 := by decide
  have h2 : log2floor (Int.toNat 1) = 0 := by decide
  have h3 : log2floor (Int.toNat 2 - 1) = 0 := by decide
  norm_num [rnF32, rnF32pos, qlog2, rne, h, h2, h3]

theorem rnF32_sub_half_8388610 : rnF32 ((8388610 : ℚ) - 1/2) = 8388610 := by
  have h : log2floor 8388609 = 23 := by decide
  have h2 : log2floor (Int.toNat 8388609) = 23 := by decide
  norm_num [rnF32, rnF32pos, qlog2, rne, h, h2]

theorem rnF32_sub_half_half : rnF32 ((1 / 2 : ℚ) - 1/2) = 0 := by
  norm_num [rnF32, rnF32pos]

theorem nearestSrcIndexF32_8388609 :
    nearestSrcIndexF32 8388609 8388611 8388611 = 8388610 := by
  unfold nearestSrcIndexF32 map_coord_f32
  rw [rnF32_int_8388609, rnF32_int_8388611, rnF32_half_add_8388609,
    rnF32_div_8388611, rnF32_mul_one_8388610, rnF32_sub_half_8388610]
  norm_num [lround, clamp_int]

theorem nearestSrcIndexF32_8388610 :
    nearestSrcIndexF32 8388610 8388611 8388611 = 8388610 := by
  unfold nearestSrcIndexF32 map_coord_f32
  rw [rnF32_int_8388610, rnF32_int_8388611, rnF32_half_add_8388610,
    rnF32_div_8388611, rnF32_mul_one_8388610, rnF32_sub_half_8388610]
  norm_num [lround, clamp_int]

theorem nearestSrcIndexF32_zero_one : nearestSrcIndexF32 0 1 1 = 0 := by
  unfold nearestSrcIndexF32 map_coord_f32
  rw [rnF32_int_zero, rnF32_int_one, rnF32_half_add_zero, rnF32_div_one,
    rnF32_half_mul_one, rnF32_sub_half_half]
  norm_num [lround, clamp_int]

/-- A valid 8388611 x 1 gray image (8388611 = 2^23 + 3): zero everywhere
except the last column. -/
def bigImg : Image := ⟨8388611, 1, 1, List.replicate 8388610 0 ++ [1]⟩

/-- The buffer the float program computes when resizing bigImg to its own
size with the Nearest kernel. -/
def bigDown : Image :=
  ⟨8388611, 1, 1, buildData 8388611 1 1 (nearestPixelF32 bigImg 8388611 1)⟩

/-- The buffer the float program computes when resizing bigDown back to the
same size again (the up half of the round trip). -/
def bigUp : Image :=
  ⟨8388611, 1, 1, buildData 8388611 1 1 (nearestPixelF32 bigDown 8388611 1)⟩

theorem repl_getD_8388609 :
    (List.replicate 8388610 (0 : ℕ) ++ [1]).getD 8388609 0 = 0 := by
  rw [List.getD_append _ _ 0 _ (by rw [List.length_replicate]; norm_num),
    List.getD_eq_getElem?_getD]
  exact List.getElem?_getD_replicate_default_eq 0 8388610 8388609

theorem repl_getD_8388610 :
    (List.replicate 8388610 (0 : ℕ) ++ [1]).getD 8388610 0 = 1 := by
  rw [List.getD_append_right _ _ 0 _ (by rw [List.length_replicate]),
    List.length_replicate]
  norm_num

theorem bigImg_wf : bigImg.wf := by
  refine ⟨by decide, by decide, by decide, ?_, ?_⟩
  · show (List.replicate 8388610 (0 : ℕ) ++ [1]).length = _
    rw [List.length_append, List.length_replicate]
    decide
  · intro b hb
    rcases List.mem_append.mp hb with h | h
    · rw [List.eq_of_mem_replicate h]
      omega
    · rw [List.mem_singleton.mp h]
      omega

theorem bigImg_atPix_8388610 : bigImg.atPix 8388610 0 0 = 1 :=
  repl_getD_8388610

theorem bigImg_atPix_8388609 : bigImg.atPix 8388609 0 0 = 0 :=
  repl_getD_8388609

theorem bigImg_f32_09 : nearestPixelF32 bigImg 8388611 1 8388609 0 0 = 1 := by
  unfold nearestPixelF32
  rw [show nearestSrcIndexF32 ((8388609 : ℕ) : ℤ) bigImg.width 8388611 =
      8388610 from nearestSrcIndexF32_8388609,
    show nearestSrcIndexF32 ((0 : ℕ) : ℤ) bigImg.height 1 = 0 from
      nearestSrcIndexF32_zero_one]
  exact bigImg_atPix_8388610

theorem bigDown_getD_8388610 : bigDown.data.getD 8388610 0 = 1 := by
  have h := buildData_getD 8388611 1 1 (nearestPixelF32 bigImg 8388611 1)
    8388610 0 0 (by decide) (by decide) (by decide)
  rw [show bigDown.data.getD 8388610 0 =
      (buildData 8388611 1 1 (nearestPixelF32 bigImg 8388611 1)).getD
        ((0 * 8388611 + 8388610) * 1 + 0) 0 from rfl, h]
  unfold nearestPixelF32
  rw [show nearestSrcIndexF32 ((8388610 : ℕ) : ℤ) bigImg.width 8388611 =
      8388610 from nearestSrcIndexF32_8388610,
    show nearestSrcIndexF32 ((0 : ℕ) : ℤ) bigImg.height 1 = 0 from
      nearestSrcIndexF32_zero_one]
  exact bigImg_atPix_8388610

theorem bigUp_getD_8388609 : bigUp.data.getD 8388609 0 = 1 := by
  have h := buildData_getD 8388611 1 1 (nearestPixelF32 bigDown 8388611 1)
    8388609 0 0 (by decide) (by decide) (by decide)
  rw [show bigUp.data.getD 8388609 0 =
      (buildData 8388611 1 1 (nearestPixelF32 bigDown 8388611 1)).getD
        ((0 * 8388611 + 8388609) * 1 + 0) 0 from rfl, h]
  unfold nearestPixelF32
  rw [show nearestSrcIndexF32 ((8388609 : ℕ) : ℤ) bigDown.width 8388611 =
      8388610 from nearestSrcIndexF32_8388609,
    show nearestSrcIndexF32 ((0 : ℕ) : ℤ) bigDown.height 1 = 0 from
      nearestSrcIndexF32_zero_one]
  exact bigDown_getD_8388610

/-- C7 counterexample: with width 8388611 = 2^23 + 3, binary32 arithmetic
rounds both (float)x + 0.5f and the final subtraction of the mapper
ties-to-even for output column x = 8388609 = 2^23 + 1, giving the source
coordinate 8388610.0f; the same-size Nearest resize therefore copies source
column 8388610 (byte 1) into output column 8388609, whose input byte is 0,
so the program does not reproduce this valid input exactly. -/
theorem nearest_same_size_float_counterexample :
    bigImg.wf ∧
    nearestPixelF32 bigImg bigImg.width bigImg.height 8388609 0 0 = 1 ∧
    bigImg.atPix 8388609 0 0 = 0 ∧ (1 : ℕ) ≠ 0 :=
  ⟨bigImg_wf, bigImg_f32_09, bigImg_atPix_8388609, by decide⟩

theorem foldl_maxAbs_init_le (l : List ℤ) :
    ∀ a : ℤ, a ≤ l.foldl
      (fun m d => if (d.natAbs : ℤ) > m then (d.natAbs : ℤ) else m) a := by
  induction l with
  | nil => intro a; exact le_refl a
  | cons x xs ih =>
    intro a
    rw [List.foldl_cons]
    refine le_trans ?_ (ih _)
    split
    · omega
    · exact le_refl a

theorem foldl_maxAbs_ge (l : List ℤ) :
    ∀ a d : ℤ, d ∈ l → (d.natAbs : ℤ) ≤ l.foldl
      (fun m d => if (d.natAbs : ℤ) > m then (d.natAbs : ℤ) else m) a := by
  induction l with
  | nil => intro a d hd; exact absurd hd (List.not_mem_nil d)
  | cons x xs ih =>
    intro a d hd
    rw [List.foldl_cons]
    rcases List.mem_cons.mp hd with h | h
    · rw [h]
      refine le_trans ?_ (foldl_maxAbs_init_le xs _)
      split
      · exact le_refl _
      · omega
    · exact ih _ d h

/-- C8 counterexample: in binary32 arithmetic the same-size round trip of
bigImg moves the byte of source column 8388610 into columns 8388609 and
8388610 of the downscale and then of the upscale, so the reconstructed
buffer differs from the source at column 8388609 and the difference metrics
cannot be the all-zero record. -/
theorem down_up_float_counterexample :
    bigImg.wf ∧
    bigUp.atPix 8388609 0 0 = 1 ∧ bigImg.atPix 8388609 0 0 = 0 ∧
    diff_metrics bigImg bigUp ≠ .ok ⟨0, ⟨0⟩, .inf, 0⟩ := by
  have hlen : bigImg.data.length = 8388611 := by
    show (List.replicate 8388610 (0 : ℕ) ++ [1]).length = 8388611
    rw [List.length_append, List.length_replicate]
    decide
  refine ⟨bigImg_wf, bigUp_getD_8388609, bigImg_atPix_8388609, ?_⟩
  intro hcontra
  simp only [diff_metrics,
    if_neg (show ¬(bigImg.width ≠ bigUp.width ∨
      bigImg.height ≠ bigUp.height ∨ bigImg.channels ≠ bigUp.channels)
      by decide),
    if_neg (show ¬(bigImg.data.length = 0) by rw [hlen]; norm_num)]
    at hcontra
  simp only [Except.ok.injEq, AttackMetrics.mk.injEq] at hcontra
  have hmax := hcontra.2.2.2
  have hmem : (-1 : ℤ) ∈ (List.range bigImg.data.length).map
      (fun i => ((bigImg.data.getD i 0 : ℤ) - (bigUp.data.getD i 0 : ℤ))) := by
    refine List.mem_map.mpr ⟨8388609, List.mem_range.mpr ?_, ?_⟩
    · rw [hlen]; norm_num
    · rw [show bigImg.data.getD 8388609 0 = 0 from repl_getD_8388609,
        bigUp_getD_8388609]
      norm_num
  have hge := foldl_maxAbs_ge _ 0 (-1) hmem
  rw [hmax] at hge
  norm_num at hge

end ImageResizer
